import Mathlib

/-!
Verification of the NMAquiferMigrationStats scripts.

Shallow embedding of the pure parts of the repository's Python scripts:
string normalization (`make_key`), the mapping lookup and matcher
(`migration_mapping_report.py`, `nmaquifer_sheets_pipeline.py`), the matrix
report builder, the pipe-delimited transfer-log parsers (`transfermetrics.py`,
`transfermetrics_2.py`, `transfer_to_amp_review.py`), the error-text cleaner,
the flat FieldPairs builder (`build_field_pairs_flat.py`), and the append-only
log sync (`transfer_to_amp_review.py`).

Machine strings are modelled as Lean `String`/`List Char`; ASCII case mapping
is used for `str.lower()` (all inputs exercised by the specification are
ASCII, and every proof about lowercasing relies only on the fact that
`[0-9a-z]` characters are fixed points, which holds for full Unicode
lowercasing as well).
-/

namespace NMAMS

/-- Whitespace characters recognized by Python's `str.strip()` and the regex
class `\s` (ASCII range): space, tab, newline, carriage return, vertical tab,
form feed. -/
def is_space (c : Char) : Bool :=
  c = ' ' || c = '\t' || c = '\n' || c = '\x0d' || c = '\x0b' || c = '\x0c'

/-- Python `str.strip()` on a character list: drop leading and trailing
whitespace. -/
def stripChars (l : List Char) : List Char :=
  ((l.dropWhile is_space).reverse.dropWhile is_space).reverse

/-- Python `str.strip()` on a string. -/
def py_strip (s : String) : String := String.mk (stripChars s.data)

/-- ASCII case mapping of `str.lower()`: `A`–`Z` (codes 65–90) map to
`a`–`z`. -/
def py_lower_char (c : Char) : Char :=
  if 65 ≤ c.toNat ∧ c.toNat ≤ 90 then Char.ofNat (c.toNat + 32) else c

/-- Python `str.lower()` on a string (ASCII case mapping). -/
def py_lower (s : String) : String := String.mk (s.data.map py_lower_char)

/-- The characters kept by `re.sub(r"[^0-9a-z]+", "", s)`: digits `0`–`9`
(codes 48–57) and lowercase letters `a`–`z` (codes 97–122). -/
def is_key_char (c : Char) : Bool :=
  (48 ≤ c.toNat && c.toNat ≤ 57) || (97 ≤ c.toNat && c.toNat ≤ 122)

/-- `make_key` from `migration_mapping_report.py` and
`nmaquifer_sheets_pipeline.py`: lowercase, then remove every character that is
not in `[0-9a-z]`. -/
def make_key (x : String) : String :=
  String.mk ((x.data.map py_lower_char).filter is_key_char)

/-- `make_key` including the `None` guard of the source (`x is None`
returns `""`). -/
def make_key_opt : Option String → String
  | none => ""
  | some s => make_key s

theorem key_char_lower_fix {c : Char} (h : is_key_char c = true) :
    py_lower_char c = c := by
  simp only [is_key_char, Bool.or_eq_true, Bool.and_eq_true, decide_eq_true_eq] at h
  unfold py_lower_char
  rw [if_neg (by omega)]

theorem make_key_chars_key (x : String) :
    ∀ c ∈ (make_key x).data, is_key_char c = true := by
  intro c hc
  simp only [make_key] at hc
  exact List.of_mem_filter hc

/-- C8: the key normalizer is total and idempotent: `make_key` is a total
function (null input yields `""` via `make_key_opt`, `""` maps to `""`),
`make_key (make_key x) = make_key x` for every string `x`, and `"Well_ID"`,
`"well id"`, `"WELL-ID"` all normalize to `"wellid"`. -/
theorem make_key_total_idempotent :
    make_key_opt none = "" ∧ make_key "" = "" ∧
    (∀ x : String, make_key (make_key x) = make_key x) ∧
    make_key ("Well_ID") = "wellid" ∧ make_key ("well id") = "wellid" ∧
    make_key ("WELL-ID") = "wellid" := by
  refine ⟨rfl, rfl, ?_, by decide, by decide, by decide⟩
  intro x
  have hkey := make_key_chars_key x
  simp only [make_key]
  congr 1
  have hmap : (make_key x).data.map py_lower_char = (make_key x).data :=
    List.map_congr_left (fun c hc => key_char_lower_fix (hkey c hc)) |>.trans
      (List.map_id _)
  show ((make_key x).data.map py_lower_char).filter is_key_char = (make_key x).data
  rw [hmap]
  exact List.filter_eq_self.mpr hkey

/-! ### Python dict semantics and the Matcher lookup

`lookup = {k: rec for k, rec in zip(sheet_df["__key__"], ...)}` builds a dict
by inserting the `(key, record)` pairs in sheet row order; inserting an
existing key overwrites its value. -/

/-- Insertion into a Python dict modelled as an association list with unique
keys: overwrite the binding if the key is present, else append at the end. -/
def py_dict_insert {α : Type} (d : List (String × α)) (k : String) (v : α) :
    List (String × α) :=
  if d.any (fun p => p.1 == k) then
    d.map (fun p => if p.1 = k then (k, v) else p)
  else d ++ [(k, v)]

/-- Lookup (`dict.get`) in the association-list dict model. -/
def py_dict_get {α : Type} (d : List (String × α)) (k : String) : Option α :=
  (d.find? (fun p => p.1 == k)).map Prod.snd

theorem py_dict_get_map_replace_ne {α : Type} (d : List (String × α))
    (k k' : String) (v : α) (hne : k' ≠ k) :
    py_dict_get (d.map (fun p => if p.1 = k then (k, v) else p)) k'
      = py_dict_get d k' := by
  induction d with
  | nil => rfl
  | cons p d ih =>
    simp only [List.map_cons, py_dict_get, List.find?_cons]
    by_cases hp : p.1 = k
    · have h1 : (k == k') = false := by
        simp only [beq_eq_false_iff_ne]; exact fun h => hne h.symm
      have h2 : (p.1 == k') = false := by
        simp only [beq_eq_false_iff_ne]; rw [hp]; exact fun h => hne h.symm
      simp only [if_pos hp, h1, h2]
      exact ih
    · simp only [if_neg hp]
      by_cases hk : p.1 = k'
      · simp [hk]
      · have h2 : (p.1 == k') = false := by simpa using hk
        simp only [h2]
        exact ih

theorem py_dict_get_map_replace_hit {α : Type} (d : List (String × α))
    (k : String) (v : α) (h : d.any (fun p => p.1 == k) = true) :
    py_dict_get (d.map (fun p => if p.1 = k then (k, v) else p)) k
      = some v := by
  induction d with
  | nil => simp at h
  | cons p d ih =>
    simp only [List.any_cons, Bool.or_eq_true, beq_iff_eq] at h
    simp only [List.map_cons, py_dict_get, List.find?_cons]
    by_cases hp : p.1 = k
    · simp [hp]
    · have h2 : (p.1 == k) = false := by simpa using hp
      simp only [if_neg hp, h2]
      exact ih (h.resolve_left hp)

theorem py_dict_get_insert {α : Type} (d : List (String × α)) (k k' : String)
    (v : α) :
    py_dict_get (py_dict_insert d k v) k'
      = if k' = k then some v else py_dict_get d k' := by
  simp only [py_dict_insert]
  by_cases hany : d.any (fun p => p.1 == k) = true
  · rw [if_pos hany]
    by_cases hk : k' = k
    · subst hk
      rw [if_pos rfl]
      exact py_dict_get_map_replace_hit d k' v hany
    · rw [if_neg hk]
      exact py_dict_get_map_replace_ne d k k' v hk
  · rw [if_neg hany]
    simp only [py_dict_get, List.find?_append]
    by_cases hk : k' = k
    · subst hk
      have hnone : d.find? (fun p => p.1 == k') = none := by
        rw [List.find?_eq_none]
        intro p hp
        have := List.any_eq_false.mp (Bool.eq_false_iff.mpr hany) p hp
        simpa using this
      simp [hnone]
    · have h1 : (k == k') = false := by
        simp only [beq_eq_false_iff_ne]; exact fun h => hk h.symm
      rw [if_neg hk]
      cases hfind : d.find? (fun p => p.1 == k') with
      | none => simp [List.find?, h1]
      | some p => simp

/-- One row of a mapping sheet (`NMAquifer_{table}`), restricted to the
columns the scripts read. -/
structure MappingRecord where
  nmaq_field : String   -- "NMAquifer Field Name"
  o_table : String      -- "Ocotillo Table Name"
  o_field : String      -- "Ocotillo Field Name"
  field_status : String -- "Does field exist in Ocotillo?"
  note : String
deriving DecidableEq

/-- The per-table lookup built by both matcher scripts:
`{k: rec for k, rec in zip(sheet_df["__key__"], sheet_df.to_dict(...))}`
where `__key__ = make_key(NMAquifer Field Name)`, inserted in sheet row
order. -/
def build_lookup (recs : List MappingRecord) : List (String × MappingRecord) :=
  recs.foldl (fun d r => py_dict_insert d (make_key r.nmaq_field) r) []

theorem build_lookup_append (recs : List MappingRecord) (r : MappingRecord) :
    build_lookup (recs ++ [r])
      = py_dict_insert (build_lookup recs) (make_key r.nmaq_field) r := by
  simp [build_lookup, List.foldl_append]

/-- C1 (amended): on duplicate normalized keys, the record kept in the lookup
is the LAST occurrence in sheet row order: probing the lookup at any key `k`
returns the last record of the sheet whose normalized old field name is `k`
(the dict comprehension overwrites earlier bindings). -/
theorem build_lookup_last_wins (recs : List MappingRecord) (k : String) :
    py_dict_get (build_lookup recs) k
      = (recs.filter (fun r => make_key r.nmaq_field == k)).getLast? := by
  induction recs using List.reverseRecOn with
  | nil => rfl
  | append_singleton recs r ih =>
    rw [build_lookup_append, py_dict_get_insert, List.filter_append]
    by_cases hk : make_key r.nmaq_field = k
    · have hfil : List.filter (fun r => make_key r.nmaq_field == k) [r] = [r] := by
        simp [hk]
      rw [hfil, List.getLast?_concat, if_pos hk.symm]
    · have hfil : List.filter (fun r => make_key r.nmaq_field == k) [r] = [] := by
        simp [hk]
      rw [hfil, List.append_nil, if_neg (fun h => hk h.symm)]
      exact ih

/-- C1 counterexample: two mapping records whose old field names normalize to
the same key `"wellid"`; the lookup returns the second (last) record, not the
first, so "first occurrence wins" is false. -/
theorem build_lookup_first_wins_counterexample :
    make_key ("Well_ID") = make_key ("WELL-ID") ∧
    py_dict_get
        (build_lookup
          [⟨"Well_ID", "sites", "id_a", "yes", "first row"⟩,
           ⟨"WELL-ID", "sites", "id_b", "no", "second row"⟩])
        (make_key ("Well_ID"))
      = some ⟨"WELL-ID", "sites", "id_b", "no", "second row"⟩ ∧
    (⟨"Well_ID", "sites", "id_a", "yes", "first row"⟩ : MappingRecord)
      ≠ ⟨"WELL-ID", "sites", "id_b", "no", "second row"⟩ := by
  refine ⟨by decide, by decide, by decide⟩

/-! ### The Matcher -/

/-- A match result for one old column: the tagged union produced by the
per-column loop of both matcher scripts. -/
inductive MatchResult where
  | matched (oldTable oldCol nmaq oTab oCol status note : String)
  | unmatched (oldTable oldCol reason : String)
deriving DecidableEq

def MatchResult.isMatched : MatchResult → Bool
  | .matched .. => true
  | .unmatched .. => false

def MatchResult.isUnmatched : MatchResult → Bool
  | .matched .. => false
  | .unmatched .. => true

/-- The body of the per-column loop when the table has a mapping sheet:
probe the lookup with `make_key(old_col)`; a hit copies the record's fields
(each passed through `normalize_name`, i.e. `str(x).strip()`), a miss yields
an unmatched row. -/
def match_one (tbl : String) (lookup : List (String × MappingRecord))
    (col : String) : MatchResult :=
  match py_dict_get lookup (make_key col) with
  | some r =>
      .matched tbl col (py_strip r.nmaq_field) (py_strip r.o_table)
        (py_strip r.o_field) (py_strip r.field_status) (py_strip r.note)
  | none =>
      .unmatched tbl col "No matching 'NMAquifer Field Name' (after normalization)"

/-- The per-table matcher loop: one `MatchResult` per old column, in order. -/
def match_table (tbl : String) (recs : List MappingRecord)
    (cols : List String) : List MatchResult :=
  cols.map (match_one tbl (build_lookup recs))

/-- C7: for a table with a mapping record set, the matcher produces exactly
one result per old column (the output has the same length as the column
list), and pairing results with their columns positionally, a result is
Matched iff the normalized key of its column hits the lookup and Unmatched
iff it misses. -/
theorem matcher_hit_iff (tbl : String) (recs : List MappingRecord)
    (cols : List String) :
    (match_table tbl recs cols).length = cols.length ∧
    ∀ p ∈ (match_table tbl recs cols).zip cols,
      (p.1.isMatched = true
          ↔ (py_dict_get (build_lookup recs) (make_key p.2)).isSome = true) ∧
      (p.1.isUnmatched = true
          ↔ (py_dict_get (build_lookup recs) (make_key p.2)).isNone = true) := by
  constructor
  · simp [match_table]
  · intro p hp
    have : p.1 = match_one tbl (build_lookup recs) p.2 := by
      induction cols with
      | nil => simp [match_table] at hp
      | cons c cs ih =>
        simp only [match_table, List.map_cons, List.zip_cons_cons,
          List.mem_cons] at hp
        rcases hp with h | h
        · rw [h]
        · exact ih (by simpa [match_table] using h)
    rw [this, match_one]
    cases hget : py_dict_get (build_lookup recs) (make_key p.2) with
    | some r =>
        simp [hget, MatchResult.isMatched, MatchResult.isUnmatched]
    | none =>
        simp [hget, MatchResult.isMatched, MatchResult.isUnmatched]

/-- C7 witness: a concrete instantiation of `matcher_hit_iff`. -/
theorem matcher_hit_iff_witness :
    ((match_table ("Wells") [⟨"well id", "sites", "latitude", "yes", ""⟩]
        ["Lat", "well id"]).zip ["Lat", "well id"]).length = 2 ∧
    ((MatchResult.unmatched ("Wells") ("Lat")
          ("No matching 'NMAquifer Field Name' (after normalization)"),
        ("Lat" : String)).1.isMatched = true
      ↔ (py_dict_get (build_lookup [⟨"well id", "sites", "latitude", "yes", ""⟩])
          (make_key ("Lat"))).isSome = true) := by
  constructor
  · decide
  · exact ((matcher_hit_iff ("Wells") [⟨"well id", "sites", "latitude", "yes", ""⟩]
      ["Lat", "well id"]).2 _ (by decide)).1

/-! ### Per-table Stats -/

/-- The per-table stats record accumulated by both matcher scripts. -/
structure Stats where
  csv_cols : Nat
  sheet_rows : Nat
  matched : Nat
  unmatched : Nat
  has_sheet : Bool
deriving DecidableEq

/-- One iteration of the table loop of both matcher scripts, reduced to the
stats it records: with no mapping sheet every column is unmatched; with a
sheet, each column increments exactly one of the two counters according to
whether its normalized key hits the lookup. -/
def table_stats (sheetOpt : Option (List MappingRecord))
    (cols : List String) : Stats :=
  match sheetOpt with
  | none => ⟨cols.length, 0, 0, cols.length, false⟩
  | some recs =>
      ⟨cols.length, recs.length,
        cols.countP
          (fun c => (py_dict_get (build_lookup recs) (make_key c)).isSome),
        cols.countP
          (fun c => (py_dict_get (build_lookup recs) (make_key c)).isNone),
        true⟩

/-- C10: the per-table Stats record is internally consistent:
`matched + unmatched = csv_cols` always, and when `has_sheet` is false,
`matched = 0` and `unmatched = csv_cols`. -/
theorem table_stats_consistent (sheetOpt : Option (List MappingRecord))
    (cols : List String) :
    (table_stats sheetOpt cols).matched + (table_stats sheetOpt cols).unmatched
        = (table_stats sheetOpt cols).csv_cols ∧
    ((table_stats sheetOpt cols).has_sheet = false →
      (table_stats sheetOpt cols).matched = 0 ∧
      (table_stats sheetOpt cols).unmatched
        = (table_stats sheetOpt cols).csv_cols) := by
  cases sheetOpt with
  | none => exact ⟨by simp [table_stats], fun _ => ⟨rfl, rfl⟩⟩
  | some recs =>
    refine ⟨?_, fun h => by simp [table_stats] at h⟩
    simp only [table_stats]
    induction cols with
    | nil => rfl
    | cons c cs ih =>
      simp only [List.countP_cons]
      cases hget : py_dict_get (build_lookup recs) (make_key c) with
      | some r => simp [hget]; omega
      | none => simp [hget]; omega

/-- C10 witness: a concrete instantiation of `table_stats_consistent`
(including the `has_sheet = false` branch). -/
theorem table_stats_consistent_witness :
    (table_stats none ["A", "B"]).matched = 0 ∧
    (table_stats none ["A", "B"]).unmatched = (table_stats none ["A", "B"]).csv_cols :=
  (table_stats_consistent none ["A", "B"]).2 rfl

/-! ### Column padding (matrix / wide layouts)

All three report builders pad shorter columns with empty strings up to the
longest column's length:
`rows.extend([""] * (max_len - len(rows)))`. -/

/-- The maximum column length (`max_len`) over a set of columns. -/
def max_col_len (cols : List (List String)) : Nat :=
  cols.foldr (fun c m => max c.length m) 0

/-- Pad every column with `""` up to `max_col_len` (the padding loop shared
by `migration_mapping_report.py`, `nmaquifer_sheets_pipeline.py` and
`transfermetrics.py`). -/
def pad_columns (cols : List (List String)) : List (List String) :=
  cols.map (fun c => c ++ List.replicate (max_col_len cols - c.length) "")

theorem length_le_max_col_len {cols : List (List String)} {c : List String}
    (hc : c ∈ cols) : c.length ≤ max_col_len cols := by
  induction cols with
  | nil => simp at hc
  | cons d ds ih =>
    rcases List.mem_cons.mp hc with h | h
    · subst h; simp [max_col_len]
    · have := ih h
      simp only [max_col_len, List.foldr_cons]
      exact le_trans this (le_max_right _ _)

/-- C9: after padding, the grid is rectangular: every column has exactly the
length of the longest input column. -/
theorem pad_columns_rectangular (cols : List (List String)) (h : cols ≠ []) :
    ∀ c ∈ pad_columns cols, c.length = max_col_len cols := by
  intro c hc
  simp only [pad_columns, List.mem_map] at hc
  obtain ⟨d, hd, rfl⟩ := hc
  have hle := length_le_max_col_len hd
  simp only [List.length_append, List.length_replicate]
  omega

/-- C9 witness: a concrete instantiation of `pad_columns_rectangular`. -/
theorem pad_columns_rectangular_witness :
    (["a", ""] : List String) ∈ pad_columns [["a"], ["b", "c"]] ∧
    (["a", ""] : List String).length = max_col_len [["a"], ["b", "c"]] :=
  ⟨by decide,
    pad_columns_rectangular [["a"], ["b", "c"]] (by decide) _ (by decide)⟩

/-! ### Append-only log sync (`transfer_to_amp_review.py`) -/

/-- A parsed AMP row `[NMAquifer_Table.Field, PointID, Error]`. -/
structure AmpRow where
  tf : String
  pid : String
  err : String
deriving DecidableEq

/-- The duplicate-detection key: the stripped triple
`(r[0].strip(), r[1].strip(), r[2].strip())`. This is also the triple a row
appended to the sheet contributes to `load_existing_set` on the next run
(which strips each loaded cell). -/
def amp_key (r : AmpRow) : String × String × String :=
  (py_strip r.tf, py_strip r.pid, py_strip r.err)

/-- Within-batch deduplication (`seen_batch` / `unique_new` in `main`):
keep the first row for each key. -/
def dedup_batch : List AmpRow → List (String × String × String) → List AmpRow
  | [], _ => []
  | r :: rs, seen =>
      if amp_key r ∈ seen then dedup_batch rs seen
      else r :: dedup_batch rs (amp_key r :: seen)

/-- Step 3 of `main`: filter the deduplicated batch to rows whose key is not
among the existing sheet rows. -/
def to_append (batch : List AmpRow)
    (existing : List (String × String × String)) : List AmpRow :=
  (dedup_batch batch []).filter (fun r => decide (amp_key r ∉ existing))

/-- The triples `load_existing_set` (`transfer_to_amp_review.py:131-135`)
reads back from rows previously appended to the sheet: each cell is
stripped, and a triple is added only `if a or b or c`, i.e. an all-empty
triple is skipped. -/
def load_keys (rows : List AmpRow) : List (String × String × String) :=
  (rows.map amp_key).filter (fun k => decide (k ≠ ("", "", "")))

/-- C5 (amended): if every deduplicated parsed row is already present in the
existing rows then nothing is appended; and re-running the same input
against the state left by a first run (the existing rows plus the triples
`load_existing_set` reads back from the rows the first run appended) appends
nothing, provided no parsed row has the all-empty triple as its key — an
all-empty row is skipped by `load_existing_set`'s `if a or b or c` guard and
is therefore re-appended on every run. -/
theorem append_sync_idempotent (batch : List AmpRow)
    (existing : List (String × String × String)) :
    ((∀ r ∈ dedup_batch batch [], amp_key r ∈ existing) →
        to_append batch existing = []) ∧
    ((∀ r ∈ dedup_batch batch [], amp_key r ≠ ("", "", "")) →
        to_append batch (existing ++ load_keys (to_append batch existing))
          = []) := by
  constructor
  · intro h
    simp only [to_append, List.filter_eq_nil_iff]
    intro r hr
    simp [h r hr]
  · intro hne
    simp only [to_append, List.filter_eq_nil_iff]
    intro r hr
    simp only [decide_eq_true_eq, Decidable.not_not, List.mem_append]
    by_cases he : amp_key r ∈ existing
    · exact Or.inl he
    · refine Or.inr ?_
      simp only [load_keys, List.mem_filter]
      refine ⟨List.mem_map.mpr ⟨r, ?_, rfl⟩, by simpa using hne r hr⟩
      exact List.mem_filter.mpr ⟨hr, by simpa using he⟩

/-- C5 witness: a concrete instantiation of `append_sync_idempotent`: with
the single parsed row already present nothing is appended, and a second run
of a batch with a non-empty key against the first run's output appends
nothing. -/
theorem append_sync_idempotent_witness :
    to_append [⟨"T.F", "P1", "bad value"⟩] [("T.F", "P1", "bad value")] = [] ∧
    to_append [⟨"T.F", "P1", "bad value"⟩]
        ([] ++ load_keys (to_append [⟨"T.F", "P1", "bad value"⟩] [])) = [] :=
  ⟨(append_sync_idempotent [⟨"T.F", "P1", "bad value"⟩]
      [("T.F", "P1", "bad value")]).1 (by decide),
   (append_sync_idempotent [⟨"T.F", "P1", "bad value"⟩] []).2 (by decide)⟩

/-! ### Python string ordering

Python compares strings lexicographically by code point, and tuples of
strings componentwise. -/

/-- Strict lexicographic order on character lists by code point. -/
def chars_lt : List Char → List Char → Bool
  | [], [] => false
  | [], _ :: _ => true
  | _ :: _, [] => false
  | a :: as, b :: bs => if a = b then chars_lt as bs else decide (a.toNat < b.toNat)

/-- Non-strict lexicographic order on character lists by code point. -/
def chars_le : List Char → List Char → Bool
  | [], _ => true
  | _ :: _, [] => false
  | a :: as, b :: bs => if a = b then chars_le as bs else decide (a.toNat < b.toNat)

theorem char_toNat_inj {a b : Char} (h : a.toNat = b.toNat) : a = b :=
  Char.ofNat_toNat a ▸ Char.ofNat_toNat b ▸ congrArg Char.ofNat h

theorem chars_le_total : ∀ a b : List Char,
    chars_le a b = true ∨ chars_le b a = true := by
  intro a
  induction a with
  | nil => intro b; exact Or.inl rfl
  | cons x xs ih =>
    intro b
    cases b with
    | nil => exact Or.inr rfl
    | cons y ys =>
      by_cases hxy : x = y
      · subst hxy
        simpa [chars_le] using ih ys
      · have hne : x.toNat ≠ y.toNat := fun h => hxy (char_toNat_inj h)
        simp only [chars_le, if_neg hxy, if_neg (Ne.symm hxy),
          decide_eq_true_eq]
        omega

theorem chars_le_trans : ∀ a b c : List Char,
    chars_le a b = true → chars_le b c = true → chars_le a c = true := by
  intro a
  induction a with
  | nil => intro b c _ _; rfl
  | cons x xs ih =>
    intro b c hab hbc
    cases b with
    | nil => simp [chars_le] at hab
    | cons y ys =>
      cases c with
      | nil => simp [chars_le] at hbc
      | cons z zs =>
        by_cases hxy : x = y <;> by_cases hyz : y = z
        · subst hxy; subst hyz
          simp only [chars_le, if_pos rfl] at hab hbc ⊢
          exact ih ys zs hab hbc
        · subst hxy
          simp only [chars_le, if_neg hyz, decide_eq_true_eq] at hbc
          have hxz : x ≠ z := fun h => by
            rw [h] at hbc; omega
          simp only [chars_le, if_neg hxz, decide_eq_true_eq]
          exact hbc
        · subst hyz
          simp only [chars_le, if_neg hxy, decide_eq_true_eq] at hab
          have hxz : x ≠ y := hxy
          simp only [chars_le, if_neg hxy, decide_eq_true_eq]
          exact hab
        · simp only [chars_le, if_neg hxy, decide_eq_true_eq] at hab
          simp only [chars_le, if_neg hyz, decide_eq_true_eq] at hbc
          have hxz : x ≠ z := fun h => by
            rw [h] at hab; omega
          simp only [chars_le, if_neg hxz, decide_eq_true_eq]
          omega

theorem chars_lt_trans : ∀ a b c : List Char,
    chars_lt a b = true → chars_lt b c = true → chars_lt a c = true := by
  intro a
  induction a with
  | nil =>
    intro b c hab hbc
    cases b with
    | nil => simp [chars_lt] at hab
    | cons y ys =>
      cases c with
      | nil => simp [chars_lt] at hbc
      | cons z zs => rfl
  | cons x xs ih =>
    intro b c hab hbc
    cases b with
    | nil => simp [chars_lt] at hab
    | cons y ys =>
      cases c with
      | nil => simp [chars_lt] at hbc
      | cons z zs =>
        by_cases hxy : x = y <;> by_cases hyz : y = z
        · subst hxy; subst hyz
          simp only [chars_lt, if_pos rfl] at hab hbc ⊢
          exact ih ys zs hab hbc
        · subst hxy
          simp only [chars_lt, if_neg hyz, decide_eq_true_eq] at hbc
          have hxz : x ≠ z := fun h => by rw [h] at hbc; omega
          simp only [chars_lt, if_neg hxz, decide_eq_true_eq]
          exact hbc
        · subst hyz
          simp only [chars_lt, if_neg hxy, decide_eq_true_eq] at hab
          simp only [chars_lt, if_neg hxy, decide_eq_true_eq]
          exact hab
        · simp only [chars_lt, if_neg hxy, decide_eq_true_eq] at hab
          simp only [chars_lt, if_neg hyz, decide_eq_true_eq] at hbc
          have hxz : x ≠ z := fun h => by rw [h] at hab; omega
          simp only [chars_lt, if_neg hxz, decide_eq_true_eq]
          omega

theorem chars_trichotomy : ∀ a b : List Char,
    chars_lt a b = true ∨ chars_lt b a = true ∨ a = b := by
  intro a
  induction a with
  | nil =>
    intro b
    cases b with
    | nil => exact Or.inr (Or.inr rfl)
    | cons y ys => exact Or.inl rfl
  | cons x xs ih =>
    intro b
    cases b with
    | nil => exact Or.inr (Or.inl rfl)
    | cons y ys =>
      by_cases hxy : x = y
      · subst hxy
        rcases ih ys with h | h | h
        · exact Or.inl (by simpa [chars_lt] using h)
        · exact Or.inr (Or.inl (by simpa [chars_lt] using h))
        · exact Or.inr (Or.inr (by rw [h]))
      · have hne : x.toNat ≠ y.toNat := fun h => hxy (char_toNat_inj h)
        simp only [chars_lt, if_neg hxy, if_neg (Ne.symm hxy),
          decide_eq_true_eq]
        omega

/-- Python `<` on strings: lexicographic by code point. -/
def str_lt (a b : String) : Prop := chars_lt a.data b.data = true

/-- Python `<=` on strings: lexicographic by code point. -/
def str_le (a b : String) : Prop := chars_le a.data b.data = true

/-- Python `<=` on `(string, string)` tuples: compare first components with
`<`, break ties with `<=` on the second. -/
def pair_le (p q : String × String) : Prop :=
  str_lt p.1 q.1 ∨ (p.1 = q.1 ∧ str_le p.2 q.2)

instance : DecidableRel str_lt := fun a b => by
  unfold str_lt; infer_instance

instance : DecidableRel str_le := fun a b => by
  unfold str_le; infer_instance

instance : DecidableRel pair_le := fun p q => by
  unfold pair_le; infer_instance

theorem string_data_inj {a b : String} (h : a.data = b.data) : a = b :=
  congrArg String.mk h

instance : IsTotal (String × String) pair_le where
  total p q := by
    rcases chars_trichotomy p.1.data q.1.data with h | h | h
    · exact Or.inl (Or.inl h)
    · exact Or.inr (Or.inl h)
    · have he : p.1 = q.1 := string_data_inj h
      rcases chars_le_total p.2.data q.2.data with h2 | h2
      · exact Or.inl (Or.inr ⟨he, h2⟩)
      · exact Or.inr (Or.inr ⟨he.symm, h2⟩)

instance : IsTrans (String × String) pair_le where
  trans p q r hpq hqr := by
    rcases hpq with h1 | ⟨he1, h1⟩
    · rcases hqr with h2 | ⟨he2, _⟩
      · exact Or.inl (chars_lt_trans _ _ _ h1 h2)
      · exact Or.inl (he2 ▸ h1)
    · rcases hqr with h2 | ⟨he2, h2⟩
      · exact Or.inl (he1 ▸ h2)
      · exact Or.inr ⟨he1.trans he2, chars_le_trans _ _ _ h1 h2⟩

/-! ### Flat FieldPairs (`build_field_pairs_flat.py`) -/

/-- Strip both components of an `(Old Table Name, Old Column Name)` pair, as
`main` does when collecting keys. -/
def strip2 (p : String × String) : String × String :=
  (py_strip p.1, py_strip p.2)

/-- First-occurrence deduplication with a seen set (the `OrderedDict`
`setdefault` loop / Python `set` membership pattern). -/
def py_dedup {α : Type} [DecidableEq α] : List α → List α → List α
  | [], _ => []
  | a :: as, seen =>
      if a ∈ seen then py_dedup as seen else a :: py_dedup as (a :: seen)

theorem mem_py_dedup {α : Type} [DecidableEq α] :
    ∀ (l seen : List α) (a : α),
      a ∈ py_dedup l seen ↔ a ∈ l ∧ a ∉ seen := by
  intro l
  induction l with
  | nil => intro seen a; simp [py_dedup]
  | cons x xs ih =>
    intro seen a
    simp only [py_dedup]
    by_cases hx : x ∈ seen
    · rw [if_pos hx, ih]
      constructor
      · rintro ⟨h1, h2⟩; exact ⟨List.mem_cons_of_mem _ h1, h2⟩
      · rintro ⟨h1, h2⟩
        rcases List.mem_cons.mp h1 with rfl | h1
        · exact absurd hx h2
        · exact ⟨h1, h2⟩
    · rw [if_neg hx]
      simp only [List.mem_cons, ih]
      constructor
      · rintro (rfl | ⟨h1, h2⟩)
        · exact ⟨Or.inl rfl, hx⟩
        · exact ⟨Or.inr h1, fun hs => h2 (Or.inr hs)⟩
      · rintro ⟨rfl | h1, h2⟩
        · exact Or.inl rfl
        · by_cases hax : a = x
          · exact Or.inl hax
          · refine Or.inr ⟨h1, ?_⟩
            rintro (rfl | hs)
            · exact hax rfl
            · exact h2 hs

theorem nodup_py_dedup {α : Type} [DecidableEq α] :
    ∀ (l seen : List α), (py_dedup l seen).Nodup := by
  intro l
  induction l with
  | nil => intro seen; simp [py_dedup]
  | cons x xs ih =>
    intro seen
    simp only [py_dedup]
    by_cases hx : x ∈ seen
    · rw [if_pos hx]; exact ih seen
    · rw [if_neg hx]
      refine List.nodup_cons.mpr ⟨?_, ih (x :: seen)⟩
      intro hmem
      exact ((mem_py_dedup xs (x :: seen) x).mp hmem).2 (List.mem_cons_self x seen)

/-- The distinct `(old table, old field)` pairs collected from the matched
rows followed by the unmatched rows (the `pairs` `OrderedDict`). -/
def flat_pair_keys (matched unmatched : List (String × String)) :
    List (String × String) :=
  py_dedup (matched.map strip2 ++ unmatched.map strip2) []

/-- The flat-pairs output order: `sorted(pairs.keys())`, i.e. the distinct
pairs sorted ascending by Python tuple comparison. -/
def flat_pairs (matched unmatched : List (String × String)) :
    List (String × String) :=
  List.insertionSort pair_le (flat_pair_keys matched unmatched)

/-- A matched CSV row as read by `build_field_pairs_flat.py` (the four
columns `main` uses). -/
structure FlatMRow where
  old_table : String
  old_field : String
  o_table : String
  o_field : String
deriving DecidableEq

/-- The `(Old Table Name, Old Column Name)` pair of a matched row. -/
def old_pair (r : FlatMRow) : String × String := (r.old_table, r.old_field)

/-- The `formatted` Ocotillo value of `main` (the dot is preserved to signal
a partial match): both sides non-empty → `"t.f"`, only a table → `"t."`,
only a field → `".f"`, neither → `""`. -/
def fmt_ocotillo (o_tab o_fld : String) : String :=
  if o_tab ≠ "" ∧ o_fld ≠ "" then o_tab ++ "." ++ o_fld
  else if o_tab ≠ "" then o_tab ++ "."
  else if o_fld ≠ "" then "." ++ o_fld
  else ""

/-- `if key not in mapping: mapping[key] = formatted` — dict insertion that
keeps the first binding. -/
def pair_dict_setdefault (d : List ((String × String) × String))
    (k : String × String) (v : String) : List ((String × String) × String) :=
  if d.any (fun p => p.1 == k) then d else d ++ [(k, v)]

/-- `dict.get` over `(table, field)` keys. -/
def pair_dict_get (d : List ((String × String) × String))
    (k : String × String) : Option String :=
  (d.find? (fun p => p.1 == k)).map Prod.snd

/-- The `mapping` dict of `main`: stripped `(old_table, old_field)` pairs to
the formatted Ocotillo reference, first match kept on duplicate keys. -/
def fp_mapping (m : List FlatMRow) : List ((String × String) × String) :=
  m.foldl (fun d r =>
    pair_dict_setdefault d (py_strip r.old_table, py_strip r.old_field)
      (fmt_ocotillo (py_strip r.o_table) (py_strip r.o_field))) []

/-- The flat output rows `(NMAquifer_TableField, Ocotillo_TableField)` of
`build_field_pairs_flat.py`: one row per sorted distinct pair, rendered as
`"table.field"` with `mapping.get(key, "")` beside it. -/
def field_pairs_output (m : List FlatMRow) (u : List (String × String)) :
    List (String × String) :=
  (flat_pairs (m.map old_pair) u).map
    (fun k => (k.1 ++ "." ++ k.2, (pair_dict_get (fp_mapping m) k).getD ""))

theorem count_eq_one_of_nodup_mem {α : Type} [BEq α] [LawfulBEq α]
    {l : List α} {a : α} (hn : l.Nodup) (hm : a ∈ l) : l.count a = 1 := by
  induction l with
  | nil => simp at hm
  | cons x xs ih =>
    rw [List.count_cons]
    rcases List.mem_cons.mp hm with rfl | hm2
    · rw [List.count_eq_zero.mpr (List.nodup_cons.mp hn).1]
      simp
    · have hne : (x == a) = false := by
        have hax : a ≠ x := fun h => (List.nodup_cons.mp hn).1 (h ▸ hm2)
        simp only [beq_eq_false_iff_ne]
        exact fun h => hax h.symm
      rw [ih (List.nodup_cons.mp hn).2 hm2, hne]
      rfl

/-- C6: the flat-pairs output has exactly one row for every distinct
stripped `(oldTable, oldField)` pair of the union of the matched and
unmatched inputs — each such pair occurs exactly once in the output key
sequence and any other pair not at all (no duplicates, no omissions), the
output is sorted ascending by `(table, field)` under Python tuple
comparison, and the row count is the number of distinct pairs. -/
theorem flat_pairs_bijection (m : List FlatMRow)
    (u : List (String × String)) :
    (∀ p : String × String,
      (flat_pairs (m.map old_pair) u).count p
        = if p ∈ (m.map old_pair).map strip2 ++ u.map strip2 then 1 else 0) ∧
    (flat_pairs (m.map old_pair) u).Sorted pair_le ∧
    (field_pairs_output m u).length
      = (flat_pair_keys (m.map old_pair) u).length := by
  have hperm := List.perm_insertionSort pair_le
    (flat_pair_keys (m.map old_pair) u)
  have hnodup : (flat_pairs (m.map old_pair) u).Nodup :=
    hperm.nodup_iff.mpr (nodup_py_dedup _ [])
  have hkeys : ∀ p : String × String,
      p ∈ flat_pair_keys (m.map old_pair) u
        ↔ p ∈ (m.map old_pair).map strip2 ++ u.map strip2 := by
    intro p
    unfold flat_pair_keys
    rw [mem_py_dedup]
    simp
  refine ⟨?_, List.sorted_insertionSort pair_le _, ?_⟩
  · intro p
    by_cases hp : p ∈ (m.map old_pair).map strip2 ++ u.map strip2
    · rw [if_pos hp]
      exact count_eq_one_of_nodup_mem hnodup
        (hperm.mem_iff.mpr ((hkeys p).mpr hp))
    · rw [if_neg hp]
      exact List.count_eq_zero.mpr
        (fun hmem => hp ((hkeys p).mp (hperm.mem_iff.mp hmem)))
  · show ((flat_pairs (m.map old_pair) u).map _).length
      = (flat_pair_keys (m.map old_pair) u).length
    rw [List.length_map]
    exact hperm.length_eq

/-- C6 witness: a concrete instantiation of `flat_pairs_bijection`'s count
characterization: the stripped pair `("Wells", "Lat")`, contributed twice by
the matched input, occurs exactly once in the output. -/
theorem flat_pairs_bijection_witness :
    (flat_pairs ([⟨"Wells", "Lat ", "sites", "latitude"⟩,
        ⟨"Wells", "Lat", "sites", "latitude"⟩].map old_pair)
        [(" Wells", "OBJECTID")]).count ("Wells", "Lat")
      = if ("Wells", "Lat")
            ∈ ([⟨"Wells", "Lat ", "sites", "latitude"⟩,
                ⟨"Wells", "Lat", "sites", "latitude"⟩].map old_pair).map strip2
              ++ [(" Wells", "OBJECTID")].map strip2 then 1 else 0 :=
  (flat_pairs_bijection
      [⟨"Wells", "Lat ", "sites", "latitude"⟩,
       ⟨"Wells", "Lat", "sites", "latitude"⟩]
      [(" Wells", "OBJECTID")]).1 ("Wells", "Lat")

/-! ### The Matrix view (`nmaquifer_sheets_pipeline.py`)

Columns are the tables appearing in the matched or unmatched rows, sorted by
the key `(not has_sheet, t.lower())`; each column renders matched fields as
`"col (status)"` followed by unmatched fields as `"col (pending)"`. -/

/-- Sorting key comparison on lowercased names:
`t.lower()` compared lexicographically. -/
def lower_le (a b : String) : Prop :=
  chars_le (py_lower a).data (py_lower b).data = true

instance : DecidableRel lower_le := fun a b => by
  unfold lower_le; infer_instance

/-- The table-ordering relation induced by Python's
`sorted(all_tables, key=lambda t: (not has_sheet(t), t.lower()))`:
tables with a mapping sheet sort before tables without one, ties broken by
the lowercased name. -/
def tbl_le (hs : String → Bool) (a b : String) : Prop :=
  (hs a = true ∧ hs b = false) ∨ (hs a = hs b ∧ lower_le a b)

instance (hs : String → Bool) : DecidableRel (tbl_le hs) := fun a b => by
  unfold tbl_le; infer_instance

theorem orderedInsert_group_left (hs : String → Bool) (x : String)
    (A B : List String) (hB : ∀ b ∈ B, hs b = false) (hx : hs x = true) :
    List.orderedInsert (tbl_le hs) x (A ++ B)
      = List.orderedInsert (tbl_le hs) x A ++ B := by
  induction A with
  | nil =>
    cases B with
    | nil => rfl
    | cons b B' =>
      have hle : tbl_le hs x b :=
        Or.inl ⟨hx, hB b (List.mem_cons_self b B')⟩
      simp [List.orderedInsert, if_pos hle]
  | cons a A' ih =>
    simp only [List.cons_append, List.orderedInsert]
    by_cases hle : tbl_le hs x a
    · rw [if_pos hle, if_pos hle]; rfl
    · rw [if_neg hle, if_neg hle]
      simp only [List.append_eq]
      rw [ih]; rfl

theorem orderedInsert_group_right (hs : String → Bool) (x : String)
    (A B : List String) (hA : ∀ a ∈ A, hs a = true) (hx : hs x = false) :
    List.orderedInsert (tbl_le hs) x (A ++ B)
      = A ++ List.orderedInsert (tbl_le hs) x B := by
  induction A with
  | nil => rfl
  | cons a A' ih =>
    have hle : ¬ tbl_le hs x a := by
      rintro (⟨h1, _⟩ | ⟨h1, _⟩)
      · rw [hx] at h1; exact Bool.false_ne_true h1
      · rw [hx, hA a (List.mem_cons_self a A')] at h1
        exact Bool.false_ne_true h1
    simp only [List.cons_append, List.orderedInsert, if_neg hle,
      List.append_eq]
    rw [ih (fun a ha => hA a (List.mem_cons_of_mem _ ha))]

theorem insertionSort_group_split (hs : String → Bool) (l : List String) :
    List.insertionSort (tbl_le hs) l
      = List.insertionSort (tbl_le hs) (l.filter (fun t => hs t))
        ++ List.insertionSort (tbl_le hs) (l.filter (fun t => !(hs t))) := by
  induction l with
  | nil => rfl
  | cons x l' ih =>
    have hA : ∀ a ∈ List.insertionSort (tbl_le hs) (l'.filter (fun t => hs t)),
        hs a = true := by
      intro a ha
      have := (List.perm_insertionSort (tbl_le hs) _).mem_iff.mp ha
      exact (List.mem_filter.mp this).2
    have hB : ∀ b ∈ List.insertionSort (tbl_le hs) (l'.filter (fun t => !(hs t))),
        hs b = false := by
      intro b hb
      have := (List.perm_insertionSort (tbl_le hs) _).mem_iff.mp hb
      have := (List.mem_filter.mp this).2
      simpa using this
    by_cases hx : hs x = true
    · simp only [List.insertionSort, List.filter_cons, hx, if_pos, ih,
        Bool.not_true]
      rw [orderedInsert_group_left hs x _ _ hB hx]
      rfl
    · have hx' : hs x = false := Bool.eq_false_iff.mpr hx
      simp only [List.insertionSort, List.filter_cons, hx', Bool.not_false, ih]
      rw [orderedInsert_group_right hs x _ _ hA hx']
      rfl

theorem orderedInsert_congr {α : Type} (r s : α → α → Prop) [DecidableRel r]
    [DecidableRel s] (x : α) (l : List α) (h : ∀ b ∈ l, r x b ↔ s x b) :
    List.orderedInsert r x l = List.orderedInsert s x l := by
  induction l with
  | nil => rfl
  | cons b bs ih =>
    simp only [List.orderedInsert]
    refine if_congr (h b (List.mem_cons_self b bs)) rfl
      (by rw [ih (fun b hb => h b (List.mem_cons_of_mem _ hb))])

theorem insertionSort_congr {α : Type} (r s : α → α → Prop) [DecidableRel r]
    [DecidableRel s] (l : List α) (h : ∀ a ∈ l, ∀ b ∈ l, (r a b ↔ s a b)) :
    List.insertionSort r l = List.insertionSort s l := by
  induction l with
  | nil => rfl
  | cons x xs ih =>
    simp only [List.insertionSort]
    have hxs := ih (fun a ha b hb =>
      h a (List.mem_cons_of_mem _ ha) b (List.mem_cons_of_mem _ hb))
    rw [← hxs]
    refine orderedInsert_congr r s x _ (fun b hb => ?_)
    have hb' : b ∈ xs := (List.perm_insertionSort r xs).mem_iff.mp hb
    exact h x (List.mem_cons_self x xs) b (List.mem_cons_of_mem _ hb')

theorem tbl_le_iff_lower (hs : String → Bool) {a b : String}
    (hab : hs a = hs b) : tbl_le hs a b ↔ lower_le a b := by
  constructor
  · rintro (⟨h1, h2⟩ | ⟨_, h2⟩)
    · rw [hab, h2] at h1; exact absurd h1 Bool.false_ne_true
    · exact h2
  · intro h; exact Or.inr ⟨hab, h⟩

/-- A matched output row, restricted to the fields the Matrix build reads. -/
structure MRow where
  table : String
  col : String
  status : String
deriving DecidableEq

/-- An unmatched output row, restricted to the fields the Matrix build
reads. -/
structure URow where
  table : String
  col : String
deriving DecidableEq

/-- Rendering of a matched row in the Matrix:
`f"{r['Old Column Name']} ({r['Does field exist in Ocotillo?']})"`. -/
def render_matched (r : MRow) : String := r.col ++ " (" ++ r.status ++ ")"

/-- Rendering of an unmatched row in the Matrix:
`f"{r['Old Column Name']} (pending)"`. -/
def render_unmatched (r : URow) : String := r.col ++ " (pending)"

/-- One Matrix column: the matched rows of the table (in order) followed by
its unmatched rows (in order). -/
def matrix_column (matched : List MRow) (unmatched : List URow)
    (t : String) : List String :=
  (matched.filter (fun r => r.table == t)).map render_matched
    ++ (unmatched.filter (fun r => r.table == t)).map render_unmatched

/-- `all_tables`: every table appearing in matched or unmatched rows (the
distinct values, first occurrence order; the source collects them in a
`set`, whose iteration order is immaterial because the result is sorted by a
key that separates the two groups). -/
def all_tables (matched : List MRow) (unmatched : List URow) : List String :=
  py_dedup (matched.map MRow.table ++ unmatched.map URow.table) []

/-- `ordered_tables = sorted(all_tables, key=lambda t: (not has_sheet, t.lower()))`. -/
def ordered_tables (hs : String → Bool) (matched : List MRow)
    (unmatched : List URow) : List String :=
  List.insertionSort (tbl_le hs) (all_tables matched unmatched)

/-- The Matrix columns: for each table, in sorted order, its rendered
column. -/
def matrix_columns (hs : String → Bool) (matched : List MRow)
    (unmatched : List URow) : List (String × List String) :=
  (ordered_tables hs matched unmatched).map
    (fun t => (t, matrix_column matched unmatched t))

/-- C3: in the Matrix view, every unmatched old field is rendered as
`"{field} (pending)"` inside its table's column, and the columns are ordered
with all tables that have a mapping sheet first (alphabetically by lowercased
name) followed by all tables without one (alphabetically), whenever both
groups are non-empty. -/
theorem matrix_pending_and_order (hs : String → Bool) (m : List MRow)
    (u : List URow)
    (h1 : ∃ t ∈ all_tables m u, hs t = true)
    (h2 : ∃ t ∈ all_tables m u, hs t = false) :
    (∀ r ∈ u, ∃ c, (r.table, c) ∈ matrix_columns hs m u
        ∧ (r.col ++ " (pending)") ∈ c) ∧
    ordered_tables hs m u
      = List.insertionSort lower_le ((all_tables m u).filter (fun t => hs t))
        ++ List.insertionSort lower_le
            ((all_tables m u).filter (fun t => !(hs t))) := by
  constructor
  · intro r hr
    refine ⟨matrix_column m u r.table, ?_, ?_⟩
    · have htab : r.table ∈ all_tables m u := by
        rw [all_tables, mem_py_dedup]
        refine ⟨List.mem_append_right _ (List.mem_map.mpr ⟨r, hr, rfl⟩), ?_⟩
        simp
      have hord : r.table ∈ ordered_tables hs m u :=
        (List.perm_insertionSort (tbl_le hs) _).mem_iff.mpr htab
      exact List.mem_map.mpr ⟨r.table, hord, rfl⟩
    · refine List.mem_append_right _ (List.mem_map.mpr ⟨r, ?_, rfl⟩)
      exact List.mem_filter.mpr ⟨hr, by simp⟩
  · rw [ordered_tables, insertionSort_group_split hs (all_tables m u)]
    congr 1
    · refine insertionSort_congr _ _ _ (fun a ha b hb => ?_)
      exact tbl_le_iff_lower hs
        ((List.mem_filter.mp ha).2.trans ((List.mem_filter.mp hb).2).symm)
    · refine insertionSort_congr _ _ _ (fun a ha b hb => ?_)
      have ha' := (List.mem_filter.mp ha).2
      have hb' := (List.mem_filter.mp hb).2
      simp only [Bool.not_eq_eq_eq_not, Bool.not_true] at ha' hb'
      exact tbl_le_iff_lower hs (ha'.trans hb'.symm)

/-- C3 witness: a concrete instantiation of `matrix_pending_and_order` with
one table having a mapping sheet and one without. -/
theorem matrix_pending_and_order_witness :
    ∃ c, (("ZTable" : String), c)
        ∈ matrix_columns (fun t => t == "Wells") [⟨"Wells", "Lat", "yes"⟩]
            [⟨"ZTable", "X"⟩]
      ∧ ("X (pending)" : String) ∈ c :=
  (matrix_pending_and_order (fun t => t == "Wells") [⟨"Wells", "Lat", "yes"⟩]
      [⟨"ZTable", "X"⟩] (by decide) (by decide)).1 ⟨"ZTable", "X"⟩ (by decide)

/-! ### Pipe-delimited transfer-log parsing

Python `s.split(sep)` and `s.split(sep, maxsplit)`. -/

/-- Split off the segment before the first occurrence of `sep`; `none` when
`sep` does not occur. -/
def split_once (sep : Char) : List Char → Option (List Char × List Char)
  | [] => none
  | c :: cs =>
      if c = sep then some ([], cs)
      else (split_once sep cs).map (fun p => (c :: p.1, p.2))

theorem split_once_some (sep : Char) :
    ∀ {s a b : List Char}, split_once sep s = some (a, b) →
      s = a ++ sep :: b ∧ b.length < s.length := by
  intro s
  induction s with
  | nil => intro a b h; simp [split_once] at h
  | cons c cs ih =>
    intro a b h
    simp only [split_once] at h
    by_cases hc : c = sep
    · rw [if_pos hc] at h
      have h2 := Option.some.inj h
      have ha : ([] : List Char) = a := congrArg Prod.fst h2
      have hb : cs = b := congrArg Prod.snd h2
      subst ha; subst hb; subst hc
      exact ⟨rfl, by simp⟩
    · rw [if_neg hc] at h
      cases hso : split_once sep cs with
      | none => rw [hso] at h; simp at h
      | some p =>
        obtain ⟨a1, b1⟩ := p
        rw [hso] at h
        have h2 := Option.some.inj h
        have ha : c :: a1 = a := congrArg Prod.fst h2
        have hb : b1 = b := congrArg Prod.snd h2
        obtain ⟨h1, hlen⟩ := ih hso
        subst ha; subst hb
        constructor
        · simp [h1]
        · simp only [List.length_cons]; omega

/-- Python `s.split(sep, n)`: split on at most the first `n` occurrences of
`sep`. -/
def py_split_n (sep : Char) : Nat → List Char → List (List Char)
  | 0, s => [s]
  | n + 1, s =>
      match split_once sep s with
      | none => [s]
      | some (a, b) => a :: py_split_n sep n b

/-- Python `s.split(sep)` without a maxsplit: split on every occurrence.
A list of length `n` contains at most `n` separators, so a maxsplit of
`s.length` never limits the split (`py_split_all_unfold` below). -/
def py_split_all (sep : Char) (s : List Char) : List (List Char) :=
  py_split_n sep s.length s

theorem py_split_n_congr (sep : Char) :
    ∀ (n m : Nat) (s : List Char), s.length ≤ n → s.length ≤ m →
      py_split_n sep n s = py_split_n sep m s := by
  intro n
  induction n with
  | zero =>
    intro m s hn _
    have : s = [] := List.length_eq_zero.mp (Nat.le_zero.mp hn)
    subst this
    cases m <;> simp [py_split_n, split_once]
  | succ n ih =>
    intro m s hn hm
    cases m with
    | zero =>
      have : s = [] := List.length_eq_zero.mp (Nat.le_zero.mp hm)
      subst this
      simp [py_split_n, split_once]
    | succ m =>
      simp only [py_split_n]
      cases h : split_once sep s with
      | none => rfl
      | some p =>
        obtain ⟨a, b⟩ := p
        have hb := (split_once_some sep h).2
        show a :: py_split_n sep n b = a :: py_split_n sep m b
        rw [ih m b (by omega) (by omega)]

theorem py_split_all_unfold (sep : Char) (s : List Char) :
    py_split_all sep s
      = match split_once sep s with
        | none => [s]
        | some (a, b) => a :: py_split_all sep b := by
  cases h : split_once sep s with
  | none =>
    cases hn : s.length with
    | zero => simp [py_split_all, hn, py_split_n]
    | succ k => simp [py_split_all, hn, py_split_n, h]
  | some p =>
    obtain ⟨a, b⟩ := p
    have hb := (split_once_some sep h).2
    cases hn : s.length with
    | zero => omega
    | succ k =>
      simp only [py_split_all, hn, py_split_n, h]
      rw [py_split_n_congr sep k b.length b (by omega) le_rfl]

theorem py_split_all_none {sep : Char} {s : List Char}
    (h : split_once sep s = none) : py_split_all sep s = [s] := by
  rw [py_split_all_unfold, h]

theorem py_split_all_some {sep : Char} {s a b : List Char}
    (h : split_once sep s = some (a, b)) :
    py_split_all sep s = a :: py_split_all sep b := by
  rw [py_split_all_unfold, h]

/-- `sep.join`: interleave the separator between the segments. -/
def inter (sep : Char) : List (List Char) → List Char
  | [] => []
  | [x] => x
  | x :: y :: ys => x ++ sep :: inter sep (y :: ys)

theorem py_split_all_ne_nil (sep : Char) (s : List Char) :
    py_split_all sep s ≠ [] := by
  rw [py_split_all_unfold]
  cases h : split_once sep s with
  | none => simp
  | some p => obtain ⟨a, b⟩ := p; simp

theorem inter_cons (sep : Char) (a : List Char) {rest : List (List Char)}
    (h : rest ≠ []) : inter sep (a :: rest) = a ++ sep :: inter sep rest := by
  cases rest with
  | nil => exact absurd rfl h
  | cons y ys => rfl

theorem inter_py_split_all_aux (sep : Char) :
    ∀ (n : Nat) (s : List Char), s.length ≤ n →
      inter sep (py_split_all sep s) = s := by
  intro n
  induction n with
  | zero =>
    intro s hs
    have : s = [] := List.length_eq_zero.mp (Nat.le_zero.mp hs)
    subst this
    rw [py_split_all_none (by simp [split_once])]
    rfl
  | succ n ih =>
    intro s hs
    cases h : split_once sep s with
    | none => rw [py_split_all_none h]; rfl
    | some p =>
      obtain ⟨a, b⟩ := p
      obtain ⟨hsplit, hlen⟩ := split_once_some sep h
      rw [py_split_all_some h,
        inter_cons sep a (py_split_all_ne_nil sep b),
        ih b (by omega), hsplit]

/-- `sep.join(s.split(sep)) == s`. -/
theorem inter_py_split_all (sep : Char) (s : List Char) :
    inter sep (py_split_all sep s) = s :=
  inter_py_split_all_aux sep s.length s le_rfl

/-- Characterization of maxsplit: `s.split(sep, n)` equals the full split
when that has at most `n + 1` parts, and otherwise equals its first `n`
parts followed by the `sep`-join of the remaining parts (the remainder of
the line, separators preserved verbatim). -/
theorem py_split_n_eq (sep : Char) :
    ∀ (n : Nat) (s : List Char),
      py_split_n sep n s
        = if (py_split_all sep s).length ≤ n + 1 then py_split_all sep s
          else (py_split_all sep s).take n
            ++ [inter sep ((py_split_all sep s).drop n)] := by
  intro n
  induction n with
  | zero =>
    intro s
    cases h : split_once sep s with
    | none => rw [py_split_all_none h]; simp [py_split_n]
    | some p =>
      obtain ⟨a, b⟩ := p
      rw [py_split_all_some h]
      have hne := py_split_all_ne_nil sep b
      have hlen : 1 ≤ (py_split_all sep b).length :=
        List.length_pos.mpr hne
      rw [if_neg (by simp only [List.length_cons]; omega)]
      simp only [List.take_zero, List.drop_zero, List.nil_append]
      have hjoin : inter sep (a :: py_split_all sep b) = s := by
        have := inter_py_split_all sep s
        rwa [py_split_all_some h] at this
      rw [hjoin]
      rfl
  | succ n ih =>
    intro s
    cases h : split_once sep s with
    | none =>
      rw [py_split_all_none h]
      simp [py_split_n, h]
    | some p =>
      obtain ⟨a, b⟩ := p
      rw [py_split_all_some h]
      simp only [py_split_n, h, List.length_cons]
      rw [ih b]
      by_cases hc : (py_split_all sep b).length ≤ n + 1
      · rw [if_pos hc, if_pos (by omega)]
      · rw [if_neg hc, if_neg (by omega)]
        simp

/-- One data line as read by `robust_read_transfer_metrics`
(`transfermetrics.py`) and `robust_read_counts` (`transfermetrics_2.py`):
`parts = ln.split("|", 3)`, padded with empty fields to 4 parts, each part
stripped. -/
def robust_parse_line (ln : String) : List String :=
  let parts := py_split_n '|' 3 ln.data
  let parts :=
    if parts.length < 4 then parts ++ List.replicate (4 - parts.length) []
    else parts
  parts.map (fun p => py_strip (String.mk p))

theorem get_concat_map_strip (A : List (List Char)) (e : List Char)
    (hA : A.length = 3) :
    ((A ++ [e]).map (fun p => py_strip (String.mk p))).get? 3
      = some (py_strip (String.mk e)) := by
  rw [List.map_append]
  simp only [List.map_cons, List.map_nil]
  have hlen : (A.map (fun p => py_strip (String.mk p))).length = 3 := by
    simpa using hA
  rw [show (3 : Nat) = (A.map (fun p => py_strip (String.mk p))).length from
    hlen.symm]
  rw [List.get?_concat_length]

/-- C2 (amended, robust consumers): in the two transfermetrics consumers the
line is split on only the first 3 pipe delimiters, so the Error field is the
whole remainder of the line — extra unescaped pipes preserved — up to the
`strip()` applied to every field. -/
theorem robust_error_field_verbatim (ln : String)
    (h : 4 ≤ (py_split_all '|' ln.data).length) :
    (robust_parse_line ln).get? 3
      = some (py_strip (String.mk
          (inter '|' ((py_split_all '|' ln.data).drop 3)))) := by
  have hparts : py_split_n '|' 3 ln.data
      = (py_split_all '|' ln.data).take 3
        ++ [inter '|' ((py_split_all '|' ln.data).drop 3)] := by
    rw [py_split_n_eq]
    by_cases hc : (py_split_all '|' ln.data).length ≤ 4
    · have h4 : (py_split_all '|' ln.data).length = 4 := le_antisymm hc h
      rw [if_pos hc]
      have hdrop : ((py_split_all '|' ln.data).drop 3).length = 1 := by
        rw [List.length_drop, h4]
      obtain ⟨x, hx⟩ := List.length_eq_one.mp hdrop
      rw [hx]
      show py_split_all '|' ln.data
        = (py_split_all '|' ln.data).take 3 ++ [inter '|' [x]]
      have hx1 : inter '|' [x] = x := rfl
      rw [hx1, ← hx, List.take_append_drop]
    · rw [if_neg hc]
  have htake : ((py_split_all '|' ln.data).take 3).length = 3 := by
    rw [List.length_take]
    omega
  have hlen4 : (py_split_n '|' 3 ln.data).length = 4 := by
    rw [hparts, List.length_append, htake]
    rfl
  have hcond : ¬ ((py_split_n '|' 3 ln.data).length < 4) := by
    rw [hlen4]; omega
  simp only [robust_parse_line, if_neg hcond]
  rw [hparts]
  exact get_concat_map_strip _ _ htake

/-- C2 witness: a concrete instantiation of `robust_error_field_verbatim`:
the line `P1|WaterLevels|DepthToWater|bad|value` has its Error field read as
`"bad|value"`, the verbatim remainder with its extra pipe. -/
theorem robust_error_field_verbatim_witness :
    (robust_parse_line ("P1|WaterLevels|DepthToWater|bad|value")).get? 3
      = some (py_strip (String.mk (inter '|'
          ((py_split_all '|' ("P1|WaterLevels|DepthToWater|bad|value").data).drop 3)))) :=
  robust_error_field_verbatim ("P1|WaterLevels|DepthToWater|bad|value")
    (by decide)

/-! ### Error-text cleaner (`transfer_to_amp_review.py`)

Each compiled regex of the source is transcribed as a matcher over character
lists; a matcher takes the text at the current position and returns the text
after the match (plus captures where the pattern has a group). Substitution
scans left to right replacing every match, as `re.sub` does; `re.search`
scans for the first match. All four patterns are case-insensitive, so
literals compare under `py_lower_char`. -/

/-- Match a literal word case-insensitively; returns the rest. -/
def lit_ci : List Char → List Char → Option (List Char)
  | [], s => some s
  | _ :: _, [] => none
  | p :: ps, c :: cs =>
      if py_lower_char c = py_lower_char p then lit_ci ps cs else none

/-- Greedy `\s*`. -/
def ws_star (s : List Char) : List Char := s.dropWhile is_space

/-- Greedy `\s+`. -/
def ws_plus : List Char → Option (List Char)
  | [] => none
  | c :: cs => if is_space c then some (cs.dropWhile is_space) else none

/-- Greedy `\d+`. -/
def digits_plus : List Char → Option (List Char)
  | [] => none
  | c :: cs => if c.isDigit then some (cs.dropWhile Char.isDigit) else none

/-- A single literal character. -/
def chr (x : Char) : List Char → Option (List Char)
  | [] => none
  | c :: cs => if c = x then some cs else none

/-- An optional literal character (`x?`): consume it when present. -/
def opt_chr (x : Char) : List Char → List Char
  | [] => []
  | c :: cs => if c = x then cs else c :: cs

/-- Word characters for `\b` (ASCII `\w`): letters, digits, underscore. -/
def is_word (c : Char) : Bool := c.isAlpha || c.isDigit || c = '_'

/-- Replace every match of `m` by `repl`, scanning left to right; `prev` is
the character before the current position (for word boundaries), `fuel`
bounds the scan (`length + 1` always suffices since every pattern consumes at
least one character). -/
def re_sub_all (m : Option Char → List Char → Option (List Char))
    (repl : List Char) : Nat → Option Char → List Char → List Char
  | 0, _, s => s
  | _ + 1, _, [] => []
  | fuel + 1, prev, c :: cs =>
      match m prev (c :: cs) with
      | some rest =>
          let consumed := (c :: cs).take ((c :: cs).length - rest.length)
          repl ++ re_sub_all m repl fuel (consumed.getLast? <|> prev) rest
      | none => c :: re_sub_all m repl fuel (some c) cs

/-- Scan for the first match of `m` (the behaviour of `re.search`). -/
def re_search {α : Type} (m : List Char → Option α) :
    Nat → List Char → Option α
  | 0, _ => none
  | fuel + 1, s =>
      match m s with
      | some r => some r
      | none =>
          match s with
          | [] => none
          | _ :: cs => re_search m fuel cs

/-- `_row_id_re`: the body `row\.id\s*=\s*\d+,\s*` of the pattern
`\brow\.id\s*=\s*\d+,\s*` (IGNORECASE). -/
def row_id_core (s : List Char) : Option (List Char) := do
  let s ← lit_ci ("row").data s
  let s ← chr '.' s
  let s ← lit_ci ("id").data s
  let s ← chr '=' (ws_star s)
  let s ← digits_plus (ws_star s)
  let s ← chr ',' s
  return ws_star s

/-- `_row_id_re` with its leading `\b`: the previous character must be
absent or a non-word character (the first pattern character `r` is a word
character). -/
def row_id_try (prev : Option Char) (s : List Char) : Option (List Char) :=
  match prev with
  | some p => if is_word p then none else row_id_core s
  | none => row_id_core s

/-- Rule 1: `_row_id_re.sub("", out)`. -/
def re_sub_row_id (s : List Char) : List Char :=
  re_sub_all row_id_try [] (s.length + 1) none s

/-- The continuation after the lazy capture of `_sensor_type_re`:
`\s*error\s*:\s*'?(?P=stype)'?` — the backreference compares
case-insensitively under IGNORECASE. -/
def sensor_tail (cap : List Char) (s : List Char) : Option (List Char) := do
  let s ← lit_ci ("error").data (ws_star s)
  let s ← chr ':' (ws_star s)
  let s ← lit_ci cap (opt_chr '\'' (ws_star s))
  return opt_chr '\'' s

/-- The lazy group `(?P<stype>[^,|]+?)`: grow the capture one class
character at a time, trying the continuation after each character (shortest
match wins, as for a lazy quantifier). -/
def sensor_lazy : Nat → List Char → List Char → Option (List Char × List Char)
  | 0, _, _ => none
  | fuel + 1, cap, s =>
      match s with
      | [] => none
      | c :: cs =>
          if c = ',' || c = '|' then none
          else
            let cap2 := cap ++ [c]
            match sensor_tail cap2 cs with
            | some rest => some (cap2, rest)
            | none => sensor_lazy fuel cap2 cs

/-- `_sensor_type_re`:
`key\s+error\s+adding\s+sensor_type\s*:\s*(?P<stype>[^,|]+?)\s*error\s*:\s*'?(?P=stype)'?`
(IGNORECASE); returns the capture and the rest. -/
def sensor_core (s : List Char) : Option (List Char × List Char) := do
  let s ← lit_ci ("key").data s
  let s ← ws_plus s
  let s ← lit_ci ("error").data s
  let s ← ws_plus s
  let s ← lit_ci ("adding").data s
  let s ← ws_plus s
  let s ← lit_ci ("sensor_type").data s
  let s ← chr ':' (ws_star s)
  let s := ws_star s
  sensor_lazy (s.length + 1) [] s

def sensor_rest (_ : Option Char) (s : List Char) : Option (List Char) :=
  (sensor_core s).map (fun p => p.2)

/-- Rule 2: `m = _sensor_type_re.search(out)`; on a hit,
`out = _sensor_type_re.sub(f"Invalid sensor_type: {stype}", out)` with
`stype = m.group("stype").strip()`. -/
def apply_sensor_rule (s : List Char) : List Char :=
  match re_search sensor_core (s.length + 1) s with
  | none => s
  | some (cap, _) =>
      re_sub_all sensor_rest
        (("Invalid sensor_type: ").data ++ stripChars cap) (s.length + 1)
        none s

/-- `_org_missing_re`:
`key\s*\(organization\)\s*=\s*\((?P<org>[^)]+)\)\s*is\s*not\s*present\s*in\s*table\s*"?"?lexicon_term"?"?\.`
(IGNORECASE); the greedy `[^)]+` runs to the next `)`. -/
def org_core (s : List Char) : Option (List Char × List Char) := do
  let s ← lit_ci ("key").data s
  let s ← chr '(' (ws_star s)
  let s ← lit_ci ("organization").data s
  let s ← chr ')' s
  let s ← chr '=' (ws_star s)
  let s ← chr '(' (ws_star s)
  let cap := s.takeWhile (fun c => c != ')')
  let s := s.dropWhile (fun c => c != ')')
  if cap.isEmpty then none
  else do
    let s ← chr ')' s
    let s ← lit_ci ("is").data (ws_star s)
    let s ← lit_ci ("not").data (ws_star s)
    let s ← lit_ci ("present").data (ws_star s)
    let s ← lit_ci ("in").data (ws_star s)
    let s ← lit_ci ("table").data (ws_star s)
    let s ← lit_ci ("lexicon_term").data (opt_chr '"' (opt_chr '"' (ws_star s)))
    let s ← chr '.' (opt_chr '"' (opt_chr '"' s))
    return (cap, s)

def org_rest (_ : Option Char) (s : List Char) : Option (List Char) :=
  (org_core s).map (fun p => p.2)

/-- Rule 3: `m = _org_missing_re.search(out)`; on a hit,
`out = _org_missing_re.sub(f"Invalid organization: {org}", out)` with
`org = m.group("org").strip()`. -/
def apply_org_rule (s : List Char) : List Char :=
  match re_search org_core (s.length + 1) s with
  | none => s
  | some (cap, _) =>
      re_sub_all org_rest (("Invalid organization: ").data ++ stripChars cap)
        (s.length + 1) none s

/-- `_value_error_prefix_re`: `^\s*value\s*error\s*[,:\-]\s*` (IGNORECASE),
anchored at the start. -/
def value_error_core (s : List Char) : Option (List Char) := do
  let s ← lit_ci ("value").data (ws_star s)
  let s ← lit_ci ("error").data (ws_star s)
  let s ← (match ws_star s with
    | c :: cs => if c = ',' || c = ':' || c = '-' then some cs else none
    | [] => none)
  return ws_star s

/-- Rule 4: `_value_error_prefix_re.sub("", out)`; being `^`-anchored (and
not MULTILINE) it can only strip one leading occurrence. -/
def apply_value_error_rule (s : List Char) : List Char :=
  match value_error_core s with
  | some rest => rest
  | none => s

/-- Rule 5: remove straight and smart double quotes. -/
def remove_quotes (s : List Char) : List Char :=
  s.filter (fun c => !(c = '"' || c = '“' || c = '”'))

/-- The pattern `\s{2,}`: two whitespace characters, then the rest of the
greedy run. -/
def ws2_try (_ : Option Char) (s : List Char) : Option (List Char) :=
  match s with
  | c :: d :: rest =>
      if is_space c && is_space d then some (rest.dropWhile is_space)
      else none
  | _ => none

/-- Rule 6a: `re.sub(r"\s{2,}", " ", out)`. -/
def collapse_ws (s : List Char) : List Char :=
  re_sub_all ws2_try [' '] (s.length + 1) none s

/-- The class `[\s\|,]` of the trailing-junk pattern. -/
def is_trailing_junk (c : Char) : Bool := is_space c || c = '|' || c = ','

/-- Rule 6c: `re.sub(r"[\s\|,]+$", "", out)`. -/
def strip_trailing_junk (s : List Char) : List Char :=
  (s.reverse.dropWhile is_trailing_junk).reverse

/-- `clean_error` from `transfer_to_amp_review.py`: the six rules in source
order (row.ID prefix removal; sensor_type rewrite; organization rewrite;
leading "value error" removal; double-quote removal; whitespace collapse,
strip, trailing-junk strip). An empty message is returned unchanged. -/
def clean_error (msg : String) : String :=
  if msg = "" then msg
  else
    String.mk (strip_trailing_junk (stripChars (collapse_ws (remove_quotes
      (apply_value_error_rule (apply_org_rule (apply_sensor_rule
        (re_sub_row_id msg.data))))))))

/-- C4: the error-text cleaner maps the two documented example inputs to
exactly the documented outputs. -/
theorem clean_error_examples :
    clean_error
        ("row.ID=42, Value error, key error adding sensor_type: Foo error: 'Foo'")
      = "Invalid sensor_type: Foo" ∧
    clean_error
        ("Key (organization)=(Bogus Org) is not present in table \"lexicon_term\".")
      = "Invalid organization: Bogus Org" := by
  constructor
  · decide
  · decide

/-! ### `parse_amp_rows` (`transfer_to_amp_review.py`)

Scans header-delimited blocks; inside a block each data line is split on
EVERY pipe, fields are stripped, and parts beyond the fourth are re-joined
into the error with `" | "`. -/

/-- `HEADER_CANON`. -/
def HEADER_CANON : String := "pointid|table|field|error"

/-- `canon`: strip then lowercase. -/
def canon (s : String) : String :=
  String.mk ((stripChars s.data).map py_lower_char)

/-- `" | ".join` (string-separator join). -/
def interS (sepStr : String) : List String → String
  | [] => ""
  | [x] => x
  | x :: y :: ys => x ++ sepStr ++ interS sepStr (y :: ys)

/-- The body of the inner loop of `parse_amp_rows` for one data line:
`parts = [p.strip() for p in raw.split("|")]`; lines with fewer than 4 parts
are skipped; `extra = " | ".join(parts[4:]).strip()`;
`combined = error if not extra else f"{error} | {extra}"`, then cleaned;
`nm_tf = f"{table}.{field}" if field else table`. -/
def amp_data_row (raw : String) : Option AmpRow :=
  let parts := (py_split_all '|' raw.data).map (fun p => py_strip (String.mk p))
  match parts with
  | p0 :: p1 :: p2 :: p3 :: rest =>
      let extra := py_strip (interS (" | ") rest)
      let combined := if extra = "" then p3 else p3 ++ " | " ++ extra
      some ⟨if p2 ≠ "" then p1 ++ "." ++ p2 else p1, p0, clean_error combined⟩
  | _ => none

/-- The two-state scan of `parse_amp_rows`: outside a block, skip lines
until a header; inside a block, a blank line ends the block, another header
restarts it, and any other line contributes a data row. -/
def amp_scan : Bool → List String → List AmpRow
  | _, [] => []
  | false, l :: rest =>
      if py_strip l ≠ "" ∧ canon (py_strip l) = HEADER_CANON then
        amp_scan true rest
      else amp_scan false rest
  | true, raw :: rest =>
      if py_strip raw = "" then amp_scan false rest
      else if canon (py_strip raw) = HEADER_CANON then amp_scan true rest
      else (amp_data_row raw).toList ++ amp_scan true rest

/-- `parse_amp_rows`. -/
def parse_amp_rows (lines : List String) : List AmpRow :=
  amp_scan false lines

/-- C2 counterexample: `parse_amp_rows` does NOT split on only the first 3
delimiters: on the data line `P1|T|F|bad value|extra` it produces the Error
`"bad value | extra"`, while the verbatim remainder after the third
delimiter is `"bad value|extra"` — the embedded pipe's spacing is rewritten,
so the Error field is not preserved verbatim in every ingesting script. -/
theorem pipe_split_counterexample :
    parse_amp_rows [("PointID|Table|Field|Error"), ("P1|T|F|bad value|extra")]
      = [⟨"T.F", "P1", "bad value | extra"⟩] ∧
    inter '|' ((py_split_all '|' ("P1|T|F|bad value|extra").data).drop 3)
      = ("bad value|extra").data ∧
    ("bad value | extra" : String) ≠ "bad value|extra" := by
  refine ⟨by decide, by decide, by decide⟩

/-- C5 counterexample: running the same transfer-log input twice does NOT
always append zero rows the second time. The input consisting of the header
and the data line `|||` parses to the single all-empty row; run 1 on an
empty sheet appends it, but `load_existing_set` skips all-empty triples
(`if a or b or c`, `transfer_to_amp_review.py:134`), so the key read back
from run 1's output is empty and run 2 appends the very same row again. -/
theorem append_sync_two_run_counterexample :
    parse_amp_rows [("PointID|Table|Field|Error"), ("|||")]
      = [⟨"", "", ""⟩] ∧
    to_append (parse_amp_rows [("PointID|Table|Field|Error"), ("|||")]) []
      = [⟨"", "", ""⟩] ∧
    load_keys [⟨"", "", ""⟩] = [] ∧
    to_append (parse_amp_rows [("PointID|Table|Field|Error"), ("|||")])
        ([] ++ load_keys (to_append
          (parse_amp_rows [("PointID|Table|Field|Error"), ("|||")]) []))
      ≠ [] := by
  refine ⟨by decide, by decide, by decide, by decide⟩

end NMAMS
